import Mathlib

/-!
Verification of the lore collection pipeline
(`src/lore_for_collection/src/parse.rs` and `output_html.rs`):
line tokenizer (`parse_line`, `parse_lines`), tree builder (`into_nodes`)
and HTML renderer (`node_to_html`, `generate_html`).
Rust strings are modelled as `List Char`; byte lengths (Rust `str::len`)
are modelled by `utf8Len`.
-/

namespace Lore

/-- Rust `char::is_whitespace`: the Unicode White_Space property. -/
def isRustWhitespace (c : Char) : Bool :=
  [0x09, 0x0A, 0x0B, 0x0C, 0x0D, 0x20, 0x85, 0xA0, 0x1680,
   0x2028, 0x2029, 0x202F, 0x205F, 0x3000].contains c.toNat
  || (0x2000 ≤ c.toNat && c.toNat ≤ 0x200A)

/-- UTF-8 byte length of a string, as Rust `str::len` counts it. -/
def utf8Len (s : List Char) : Nat := (s.map Char.utf8Size).sum

/-- Rust `str::trim_start`. -/
def trimStartL (s : List Char) : List Char := s.dropWhile isRustWhitespace

/-- Rust trimming at the end of a string. -/
def trimEndL (s : List Char) : List Char :=
  (s.reverse.dropWhile isRustWhitespace).reverse

/-- Rust `str::trim` (both ends). -/
def trimL (s : List Char) : List Char := trimEndL (trimStartL s)

/-- Rust `str::starts_with(c)` for a single character pattern. -/
def startsWithChar (c : Char) (s : List Char) : Bool := s.head? == some c

/-- Tagged union `LineContent` from parse.rs: the tokenizer's typed line value. -/
inductive LineContent where
  | PlaceHolder (indent : Nat)
  | Atom (content : List Char) (indent : Nat)
  | Comment (content : List Char) (indent : Nat)
  | Link (name value : List Char) (indent : Nat)
  | Domain (name : List Char) (indent : Nat)
  | Reference (name value : List Char) (indent : Nat)
  deriving DecidableEq

/-- Tokenizer `parse_line` from parse.rs: classify one raw line. -/
def parse_line (line : List Char) : LineContent :=
  let trimmed := trimStartL line
  let indent := (utf8Len line - utf8Len trimmed) / 2
  if startsWithChar '#' trimmed && trimmed.length > 1
      && !(List.isPrefixOf ['#', ' '] trimmed) then
    LineContent.Comment (trimL (trimmed.drop 1)) indent
  else if trimmed = ['#'] then
    LineContent.PlaceHolder indent
  else if startsWithChar '+' trimmed && trimmed.length > 1 then
    LineContent.Domain (trimL (trimmed.drop 1)) indent
  else
    match trimmed.findIdx? (fun c => c == '=') with
    | some pos =>
      let before_eq := trimL (trimmed.take pos)
      let after_eq := trimL (trimmed.drop (pos + 1))
      if before_eq.contains '>' then
        let parts := before_eq.splitOn '>'
        if parts.length = 2 then
          LineContent.Reference (trimL (parts.getD 0 []))
            (trimL (parts.getD 1 [])) indent
        else
          LineContent.Link before_eq after_eq indent
      else
        LineContent.Link before_eq after_eq indent
    | none => LineContent.Atom trimmed indent

/-- Front end `parse_lines` from parse.rs: split on newlines, drop blank lines,
tokenize each remaining line. -/
def parse_lines (input : List Char) : List LineContent :=
  ((input.splitOn '\n').filter (fun l => !(trimL l).isEmpty)).map parse_line

/-- Rust slice `s[i..]`, made explicit about its panic condition:
`none` when the start index is out of range. -/
def sliceFrom (s : List Char) (i : Nat) : Option (List Char) :=
  if i ≤ s.length then some (s.drop i) else none

/-- Rust slice `s[..i]`, made explicit about its panic condition. -/
def sliceTo (s : List Char) (i : Nat) : Option (List Char) :=
  if i ≤ s.length then some (s.take i) else none

/-- Variant of `parse_line` with every slicing and indexing operation guarded:
`none` marks an input on which the Rust code would panic. -/
def parse_lineO (line : List Char) : Option LineContent :=
  let trimmed := trimStartL line
  let indent := (utf8Len line - utf8Len trimmed) / 2
  if startsWithChar '#' trimmed && trimmed.length > 1
      && !(List.isPrefixOf ['#', ' '] trimmed) then
    (sliceFrom trimmed 1).map (fun r => LineContent.Comment (trimL r) indent)
  else if trimmed = ['#'] then
    some (LineContent.PlaceHolder indent)
  else if startsWithChar '+' trimmed && trimmed.length > 1 then
    (sliceFrom trimmed 1).map (fun r => LineContent.Domain (trimL r) indent)
  else
    match trimmed.findIdx? (fun c => c == '=') with
    | some pos =>
      match sliceTo trimmed pos, sliceFrom trimmed (pos + 1) with
      | some b, some a =>
        let before_eq := trimL b
        let after_eq := trimL a
        if before_eq.contains '>' then
          let parts := before_eq.splitOn '>'
          if parts.length = 2 then
            match parts.get? 0, parts.get? 1 with
            | some p0, some p1 =>
              some (LineContent.Reference (trimL p0) (trimL p1) indent)
            | _, _ => none
          else some (LineContent.Link before_eq after_eq indent)
        else some (LineContent.Link before_eq after_eq indent)
      | _, _ => none
    | none => some (LineContent.Atom trimmed indent)

/-- Enum `DomainType` from node.rs. -/
inductive DomainType where
  | Category1 (name : List Char)
  | Category2 (name value : List Char)

/-- Enum `NodeType` from node.rs. -/
inductive NodeType where
  | PlaceHolder
  | Comment (text : List Char)
  | Element (text : List Char)
  | Rail (name value : List Char)
  | Domain (d : DomainType)

/-- Struct `Node` from node.rs: a node type together with its list of children
(`rails`). -/
inductive Node where
  | mk (node_type : NodeType) (rails : List Node)

/-- The `node_type` field of a `Node`. -/
def Node.node_type : Node → NodeType
  | .mk t _ => t

/-- The `rails` field of a `Node`. -/
def Node.rails : Node → List Node
  | .mk _ r => r

/-- The indent carried by a `LineContent` (the `match` at the top of
`into_nodes`'s loop and again in its final root-collection loop). -/
def indentOfLC : LineContent → Nat
  | .PlaceHolder i => i
  | .Atom _ i => i
  | .Comment _ i => i
  | .Link _ _ i => i
  | .Domain _ i => i
  | .Reference _ _ i => i

/-- The node materialized from one line (the `let node = match line`
block of `into_nodes`); every fresh node has empty `rails`. -/
def mkNode : LineContent → Node
  | .PlaceHolder _ => .mk .PlaceHolder []
  | .Atom c _ => .mk (.Element c) []
  | .Comment c _ => .mk (.Comment c) []
  | .Link n v _ => .mk (.Rail n v) []
  | .Domain n _ => .mk (.Domain (.Category1 n)) []
  | .Reference n v _ => .mk (.Domain (.Category2 n v)) []

/-- Whether a line is pushed onto the indentation stack (the final
`match line` of `into_nodes`'s loop: `Domain` and `Reference` lines). -/
def isDomainLine : LineContent → Bool
  | .Domain _ _ => true
  | .Reference _ _ _ => true
  | _ => false

/-- The `if let NodeType::Domain(_)` test in `into_nodes`. -/
def isDomainNodeType : NodeType → Bool
  | .Domain _ => true
  | _ => false

/-- One iteration of `into_nodes`'s main loop.  State: the node arena
(`nodes`) and the indentation stack, top at the head, of
`(indent, node index)` pairs. -/
def attachStep (acc : List Node × List (Nat × Nat)) (line : LineContent) :
    List Node × List (Nat × Nat) :=
  let nodes := acc.1
  let current_indent := indentOfLC line
  let stack1 := acc.2.dropWhile (fun p => current_indent ≤ p.1)
  let node := mkNode line
  let node_index := nodes.length
  let nodes1 := nodes ++ [node]
  let nodes2 :=
    match stack1.head? with
    | some p =>
      let parent_clone := nodes1.getD p.2 (Node.mk .PlaceHolder [])
      if isDomainNodeType parent_clone.node_type then
        if node_index < nodes1.length then
          let child_node := nodes1.getD node_index (Node.mk .PlaceHolder [])
          nodes1.set p.2
            (Node.mk parent_clone.node_type (parent_clone.rails ++ [child_node]))
        else nodes1
      else nodes1
    | none => nodes1.take (node_index + 1)
  let stack2 :=
    if isDomainLine line then (current_indent, node_index) :: stack1 else stack1
  (nodes2, stack2)

/-- Tree builder `into_nodes` from parse.rs: run the loop over all lines, then collect
as roots the nodes of the lines whose indent is 0. -/
def into_nodes (lines : List LineContent) : List Node :=
  if lines.isEmpty then []
  else
    let nodes := (lines.foldl attachStep ([], [])).1
    lines.enum.filterMap (fun p =>
      if indentOfLC p.2 = 0 ∧ p.1 < nodes.length then nodes.get? p.1 else none)

/-- One iteration of `into_nodes`'s loop with every vector indexing
guarded: `none` marks a state in which the Rust code would panic. -/
def attachStepO (acc : Option (List Node × List (Nat × Nat)))
    (line : LineContent) : Option (List Node × List (Nat × Nat)) :=
  match acc with
  | none => none
  | some a =>
    let nodes := a.1
    let current_indent := indentOfLC line
    let stack1 := a.2.dropWhile (fun p => current_indent ≤ p.1)
    let node := mkNode line
    let node_index := nodes.length
    let nodes1 := nodes ++ [node]
    let nodes2O :=
      match stack1.head? with
      | some p =>
        match nodes1.get? p.2 with
        | none => none
        | some parent_clone =>
          if isDomainNodeType parent_clone.node_type then
            if node_index < nodes1.length then
              match nodes1.get? node_index with
              | none => none
              | some child_node =>
                some (nodes1.set p.2
                  (Node.mk parent_clone.node_type
                    (parent_clone.rails ++ [child_node])))
            else some nodes1
          else some nodes1
      | none => some (nodes1.take (node_index + 1))
    match nodes2O with
    | none => none
    | some nodes2 =>
      some (nodes2,
        if isDomainLine line then (current_indent, node_index) :: stack1
        else stack1)

/-- Variant of `into_nodes` built from the guarded step: `none` marks an input on
which the Rust code would panic. -/
def into_nodesO (lines : List LineContent) : Option (List Node) :=
  if lines.isEmpty then some []
  else
    match lines.foldl attachStepO (some ([], [])) with
    | none => none
    | some st =>
      some (lines.enum.filterMap (fun p =>
        if indentOfLC p.2 = 0 ∧ p.1 < st.1.length then st.1.get? p.1 else none))

/-- Indentation text `"  ".repeat(level)` from output_html.rs. -/
def repeatL (s : List Char) (n : Nat) : List Char := (List.replicate n s).flatten

/-- Whether `pat` occurs as a contiguous substring of `s` (used only to
state facts about rendered HTML). -/
def hasSubstr (s pat : List Char) : Bool :=
  match s with
  | [] => pat.isEmpty
  | _ :: t => List.isPrefixOf pat s || hasSubstr t pat

mutual

/-- Renderer `node_to_html` from output_html.rs: render one node at a nesting
level.  `Comment` and `PlaceHolder` render to nothing; `Domain` renders a
`details` block, pre-opened exactly at level 2, with its children one
level deeper; `Rail` renders a hyperlink; `Element` renders a paragraph. -/
def node_to_html (node : Node) (level : Nat) : List Char :=
  match node with
  | .mk nt rails =>
    match nt with
    | .Comment _ => []
    | .PlaceHolder => []
    | .Domain domain_type =>
      let indent := repeatL "  ".toList level
      let is_open := if level = 2 then " open".toList else []
      let title :=
        match domain_type with
        | .Category1 name => name
        | .Category2 name content => name ++ " = ".toList ++ content
      indent ++ "<details".toList ++ is_open ++ ">\n".toList
        ++ indent ++ "  <summary>".toList ++ title ++ "</summary>\n".toList
        ++ (if rails.isEmpty then []
            else indent ++ "  <div style=\"margin-left:20px\">\n".toList
              ++ rails_to_html rails (level + 1)
              ++ indent ++ "  </div>\n".toList)
        ++ indent ++ "</details>\n".toList
    | .Rail name content =>
      repeatL "  ".toList level ++ "<a href=\"".toList ++ content
        ++ "\" target=\"_blank\">".toList ++ name ++ "</a>\n".toList
    | .Element content =>
      repeatL "  ".toList level ++ "<p>".toList ++ content ++ "</p>\n".toList

/-- The `for child in &node.rails` loop inside `node_to_html`. -/
def rails_to_html (rails : List Node) (level : Nat) : List Char :=
  match rails with
  | [] => []
  | n :: ns => node_to_html n level ++ rails_to_html ns level

end

/-- Renderer `generate_html` from output_html.rs: the document shell around the
rendered forest (each root rendered at level 2). -/
def generate_html (nodes : List Node) (title : List Char) : List Char :=
  "<!DOCTYPE html>\n<html>\n<head>\n  <meta charset=\"UTF-8\">\n  <meta name=\"viewport\" content=\"width=device-width, initial-scale=1.0\">\n  <title>".toList
    ++ title
    ++ "</title>\n  <link rel=\"stylesheet\" href=\"https://fleetinglore.github.io/collection/collection.css\">\n</head>\n<body>\n  <details open>\n      <summary>".toList
    ++ title
    ++ "</summary>\n      <div style=\"margin-left:17px\">\n".toList
    ++ rails_to_html nodes 2
    ++ "    </div>\n  </details>\n</body>\n</html>".toList

/-- Spec-side definition, following claim C8's words: the number of
leading space characters (only U+0020) of a line. -/
def leadingSpaceCount (s : List Char) : Nat :=
  (s.takeWhile (fun c => c == ' ')).length

/-- The textual content fields carried by a tokenized line. -/
def contentFields : LineContent → List (List Char)
  | .PlaceHolder _ => []
  | .Atom c _ => [c]
  | .Comment c _ => [c]
  | .Link n v _ => [n, v]
  | .Domain n _ => [n]
  | .Reference n v _ => [n, v]

/-- A string does not begin with a whitespace character. -/
def noLeadingWs (s : List Char) : Bool :=
  match s.head? with
  | none => true
  | some c => !isRustWhitespace c

/-! ### Invariants of the builder loop -/

/-- Every direct child of `n` has empty rails. -/
def shallowNode (n : Node) : Prop := ∀ c ∈ n.rails, c.rails = []

/-- Invariant carried through `into_nodes`'s loop: every stack entry
indexes into the node arena, and every arena node is shallow. -/
def GoodState (acc : List Node × List (Nat × Nat)) : Prop :=
  (∀ p ∈ acc.2, p.2 < acc.1.length) ∧ (∀ n ∈ acc.1, shallowNode n)

theorem getD_append_length (l : List Node) (a d : Node) :
    (l ++ [a]).getD l.length d = a := by
  induction l with
  | nil => rfl
  | cons x xs ih => simp [ih]

theorem get?_append_length {α : Type} (l : List α) (a : α) :
    (l ++ [a]).get? l.length = some a := by
  rw [List.get?_eq_getElem?, List.getElem?_append_right (Nat.le_refl _)]
  simp

theorem mkNode_rails (line : LineContent) : (mkNode line).rails = [] := by
  cases line <;> rfl

theorem attachStep_snd (acc : List Node × List (Nat × Nat))
    (line : LineContent) :
    (attachStep acc line).2 =
      if isDomainLine line then
        (indentOfLC line, acc.1.length)
          :: acc.2.dropWhile (fun p => indentOfLC line ≤ p.1)
      else acc.2.dropWhile (fun p => indentOfLC line ≤ p.1) := rfl

theorem attachStep_fst_length (acc : List Node × List (Nat × Nat))
    (line : LineContent) :
    ((attachStep acc line).1).length = acc.1.length + 1 := by
  unfold attachStep
  dsimp only
  split
  · split
    · split
      · simp
      · simp
    · simp
  · simp

theorem mem_attachStep_fst {acc : List Node × List (Nat × Nat)}
    {line : LineContent} {n : Node} (hn : n ∈ (attachStep acc line).1) :
    n ∈ acc.1 ∨ n = mkNode line ∨
      ∃ parent ∈ acc.1 ++ [mkNode line],
        n = Node.mk parent.node_type (parent.rails ++ [mkNode line]) := by
  have hmem1 : ∀ m : Node, m ∈ acc.1 ++ [mkNode line] →
      m ∈ acc.1 ∨ m = mkNode line := by
    intro m hm
    rcases List.mem_append.mp hm with h | h
    · exact Or.inl h
    · exact Or.inr (List.mem_singleton.mp h)
  unfold attachStep at hn
  dsimp only at hn
  rw [getD_append_length] at hn
  split at hn
  · rename_i p hp
    split at hn
    · rename_i hdom
      split at hn
      · rcases List.mem_or_eq_of_mem_set hn with h | h
        · rcases hmem1 n h with h' | h'
          · exact Or.inl h'
          · exact Or.inr (Or.inl h')
        · refine Or.inr (Or.inr ?_)
          refine ⟨(acc.1 ++ [mkNode line]).getD p.2 (Node.mk .PlaceHolder []),
            ?_, h⟩
          rw [List.getD_eq_getElem?_getD]
          rcases hg : (acc.1 ++ [mkNode line])[p.2]? with _ | x
          · exfalso
            rw [List.getD_eq_getElem?_getD, hg] at hdom
            exact Bool.false_ne_true hdom
          · simpa using List.getElem?_mem hg
      · rcases hmem1 n hn with h' | h'
        · exact Or.inl h'
        · exact Or.inr (Or.inl h')
    · rcases hmem1 n hn with h' | h'
      · exact Or.inl h'
      · exact Or.inr (Or.inl h')
  · have := (List.take_sublist _ _).subset hn
    rcases hmem1 n this with h' | h'
    · exact Or.inl h'
    · exact Or.inr (Or.inl h')

theorem attachStep_shallow {acc : List Node × List (Nat × Nat)}
    {line : LineContent} (hsh : ∀ n ∈ acc.1, shallowNode n) :
    ∀ n ∈ (attachStep acc line).1, shallowNode n := by
  intro n hn
  rcases mem_attachStep_fst hn with h | h | ⟨parent, hpar, rfl⟩
  · exact hsh n h
  · subst h
    intro c hc
    rw [mkNode_rails] at hc
    cases hc
  · intro c hc
    have hc' : c ∈ parent.rails ++ [mkNode line] := hc
    rcases List.mem_append.mp hc' with h | h
    · rcases List.mem_append.mp hpar with h' | h'
      · exact hsh parent h' c h
      · have hpr : parent.rails = [] := by
          rw [List.mem_singleton.mp h']
          exact mkNode_rails line
        rw [hpr] at h
        cases h
    · rw [List.mem_singleton.mp h]
      exact mkNode_rails line

theorem attachStep_stack {acc : List Node × List (Nat × Nat)}
    {line : LineContent} (hstk : ∀ p ∈ acc.2, p.2 < acc.1.length) :
    ∀ p ∈ (attachStep acc line).2, p.2 < ((attachStep acc line).1).length := by
  intro p hp
  rw [attachStep_fst_length]
  rw [attachStep_snd] at hp
  split at hp
  · rcases List.mem_cons.mp hp with h | h
    · rw [h]
      exact Nat.lt_succ_self _
    · exact Nat.lt_succ_of_lt (hstk p ((List.dropWhile_sublist _).subset h))
  · exact Nat.lt_succ_of_lt (hstk p ((List.dropWhile_sublist _).subset hp))

theorem attachStep_good {acc : List Node × List (Nat × Nat)}
    (line : LineContent) (h : GoodState acc) :
    GoodState (attachStep acc line) :=
  ⟨attachStep_stack h.1, attachStep_shallow h.2⟩

theorem foldl_attachStep_length (lines : List LineContent) :
    ∀ acc, ((lines.foldl attachStep acc).1).length = acc.1.length + lines.length := by
  induction lines with
  | nil => intro acc; simp
  | cons l ls ih =>
    intro acc
    rw [List.foldl_cons, ih, attachStep_fst_length]
    simp only [List.length_cons]
    omega

theorem foldl_attachStep_good (lines : List LineContent) :
    ∀ acc, GoodState acc → GoodState (lines.foldl attachStep acc) := by
  induction lines with
  | nil => intro acc h; exact h
  | cons l ls ih => intro acc h; exact ih _ (attachStep_good l h)

theorem ite_some_ite {α : Type} {c c2 : Prop} [Decidable c] [Decidable c2]
    {x y z : α} :
    (if c then if c2 then some x else some y else some z)
      = some (if c then if c2 then x else y else z) := by
  split
  · split
    · rfl
    · rfl
  · rfl

theorem attachStepO_eq {acc : List Node × List (Nat × Nat)}
    {line : LineContent} (h : GoodState acc) :
    attachStepO (some acc) line = some (attachStep acc line) := by
  obtain ⟨hstk, hsh⟩ := h
  unfold attachStepO attachStep
  dsimp only
  rcases hhead : (acc.2.dropWhile fun p => indentOfLC line ≤ p.1).head? with _ | p
  · simp only [hhead]
  · have hp : p ∈ acc.2 := by
      refine (List.dropWhile_sublist
        (fun q : Nat × Nat => decide (indentOfLC line ≤ q.1))).subset ?_
      obtain ⟨ys, hys⟩ := List.head?_eq_some_iff.mp hhead
      rw [hys]
      exact List.mem_cons_self _ _
    have hlt : p.2 < (acc.1 ++ [mkNode line]).length := by
      rw [List.length_append]
      exact Nat.lt_of_lt_of_le (hstk p hp) (by simp)
    have hget : (acc.1 ++ [mkNode line]).get? p.2 =
        some ((acc.1 ++ [mkNode line]).getD p.2 (Node.mk .PlaceHolder [])) := by
      rw [List.getD_eq_getElem?_getD, List.get?_eq_getElem?,
        List.getElem?_eq_getElem hlt]
      rfl
    simp only [hhead, hget, get?_append_length, getD_append_length]
    rw [ite_some_ite]

theorem GoodState_nil : GoodState ([], []) := by
  constructor
  · intro p hp
    cases hp
  · intro n hn
    cases hn

theorem foldl_attachStepO_eq (lines : List LineContent) :
    ∀ acc, GoodState acc →
      lines.foldl attachStepO (some acc) = some (lines.foldl attachStep acc) := by
  induction lines with
  | nil => intro acc _; rfl
  | cons l ls ih =>
    intro acc h
    rw [List.foldl_cons, List.foldl_cons, attachStepO_eq h]
    exact ih _ (attachStep_good l h)

theorem into_nodesO_eq (lines : List LineContent) :
    into_nodesO lines = some (into_nodes lines) := by
  unfold into_nodesO into_nodes
  cases he : lines.isEmpty
  · simp only [he, Bool.false_eq_true, if_false,
      foldl_attachStepO_eq lines ([], []) GoodState_nil]
  · simp [he]

theorem parse_lineO_eq (line : List Char) :
    parse_lineO line = some (parse_line line) := by
  unfold parse_lineO parse_line
  dsimp only
  split
  · rename_i h1
    have hlen : 1 < (trimStartL line).length := by
      simp only [Bool.and_eq_true, decide_eq_true_eq] at h1
      exact h1.1.2
    simp [sliceFrom, Nat.le_of_lt hlen]
  · split
    · rfl
    · split
      · rename_i h3
        have hlen : 1 < (trimStartL line).length := by
          simp only [Bool.and_eq_true, decide_eq_true_eq] at h3
          exact h3.2
        simp [sliceFrom, Nat.le_of_lt hlen]
      · split
        · rename_i pos hfind
          have hpos : pos < (trimStartL line).length :=
            (List.findIdx?_eq_some_iff_findIdx_eq.mp hfind).1
          have h4 : sliceTo (trimStartL line) pos =
              some ((trimStartL line).take pos) := by
            simp [sliceTo, Nat.le_of_lt hpos]
          have h5 : sliceFrom (trimStartL line) (pos + 1) =
              some ((trimStartL line).drop (pos + 1)) := by
            simp only [sliceFrom, if_pos (Nat.succ_le_of_lt hpos)]
          rw [h4, h5]
          dsimp only
          split
          · split
            · rename_i hlen2
              obtain ⟨a, b, hab⟩ : ∃ a b,
                  (trimL ((trimStartL line).take pos)).splitOn '>' = [a, b] := by
                rcases hps : (trimL ((trimStartL line).take pos)).splitOn '>'
                  with _ | ⟨a, _ | ⟨b, _ | _⟩⟩ <;> simp_all
              rw [hab]
              rfl
            · rfl
          · rfl
        · rfl

theorem fst_lt_of_mem_enumFrom {α : Type} :
    ∀ {l : List α} {n : Nat} {p : Nat × α}, p ∈ l.enumFrom n → p.1 < n + l.length := by
  intro l
  induction l with
  | nil => intro n p hp; cases hp
  | cons a as ih =>
    intro n p hp
    rw [List.enumFrom_cons] at hp
    simp only [List.length_cons]
    rcases List.mem_cons.mp hp with h | h
    · rw [h]
      omega
    · have := ih h
      omega

theorem snd_mem_of_mem_enumFrom {α : Type} :
    ∀ {l : List α} {n : Nat} {p : Nat × α}, p ∈ l.enumFrom n → p.2 ∈ l := by
  intro l
  induction l with
  | nil => intro n p hp; cases hp
  | cons a as ih =>
    intro n p hp
    rw [List.enumFrom_cons] at hp
    rcases List.mem_cons.mp hp with h | h
    · rw [h]
      exact List.mem_cons_self _ _
    · exact List.mem_cons_of_mem _ (ih h)

theorem countP_enumFrom {α : Type} (q : α → Bool) :
    ∀ (l : List α) (n : Nat),
      (l.enumFrom n).countP (fun p => q p.2) = l.countP q := by
  intro l
  induction l with
  | nil => intro n; rfl
  | cons a as ih =>
    intro n
    rw [List.enumFrom_cons]
    simp [List.countP_cons, ih]

theorem length_filterMap_guard (nodes : List Node) :
    ∀ ps : List (Nat × LineContent), (∀ p ∈ ps, p.1 < nodes.length) →
      (ps.filterMap (fun p =>
        if indentOfLC p.2 = 0 ∧ p.1 < nodes.length then nodes.get? p.1
        else none)).length
      = ps.countP (fun p => indentOfLC p.2 == 0) := by
  intro ps
  induction ps with
  | nil => intro _; rfl
  | cons p ps ih =>
    intro hall
    have hp := hall p (List.mem_cons_self _ _)
    have hrest := ih (fun q hq => hall q (List.mem_cons_of_mem _ hq))
    rw [List.filterMap_cons]
    by_cases hz : indentOfLC p.2 = 0
    · rw [if_pos ⟨hz, hp⟩]
      obtain ⟨x, hx⟩ : ∃ x, nodes.get? p.1 = some x := by
        rw [List.get?_eq_getElem?]
        exact ⟨_, List.getElem?_eq_getElem hp⟩
      rw [hx, List.length_cons, hrest, List.countP_cons]
      simp [hz]
    · rw [if_neg (fun hand => hz hand.1), hrest, List.countP_cons]
      simp [hz]

theorem filterMap_guard_eq_filter_map (nodes : List Node) :
    ∀ ps : List (Nat × LineContent), (∀ p ∈ ps, p.1 < nodes.length) →
      ps.filterMap (fun p =>
        if indentOfLC p.2 = 0 ∧ p.1 < nodes.length then nodes.get? p.1
        else none)
      = (ps.filter (fun p => indentOfLC p.2 == 0)).map
          (fun p => nodes.getD p.1 (Node.mk .PlaceHolder [])) := by
  intro ps
  induction ps with
  | nil => intro _; rfl
  | cons p ps ih =>
    intro hall
    have hp := hall p (List.mem_cons_self _ _)
    have hrest := ih (fun q hq => hall q (List.mem_cons_of_mem _ hq))
    rw [List.filterMap_cons, List.filter_cons]
    by_cases hz : indentOfLC p.2 = 0
    · have hget : nodes.get? p.1 =
          some (nodes.getD p.1 (Node.mk .PlaceHolder [])) := by
        rw [List.getD_eq_getElem?_getD, List.get?_eq_getElem?,
          List.getElem?_eq_getElem hp]
        rfl
      have hzb : (indentOfLC p.2 == 0) = true := by simp [hz]
      rw [if_pos ⟨hz, hp⟩, hget, if_pos hzb, List.map_cons, hrest]
    · have hzb : ¬((indentOfLC p.2 == 0) = true) := by simp [hz]
      rw [if_neg (fun hand => hz hand.1), if_neg hzb, hrest]

theorem utf8Len_append (a b : List Char) :
    utf8Len (a ++ b) = utf8Len a + utf8Len b := by
  simp [utf8Len]

theorem indent_parse_line (line : List Char) :
    indentOfLC (parse_line line) =
      (utf8Len line - utf8Len (trimStartL line)) / 2 := by
  unfold parse_line
  dsimp only
  split
  · rfl
  · split
    · rfl
    · split
      · rfl
      · split
        · split
          · split
            · rfl
            · rfl
          · rfl
        · rfl

theorem utf8Len_sub_trimStart (line : List Char) :
    utf8Len line - utf8Len (trimStartL line) =
      utf8Len (line.takeWhile isRustWhitespace) := by
  have h : utf8Len line =
      utf8Len (line.takeWhile isRustWhitespace) +
        utf8Len (line.dropWhile isRustWhitespace) := by
    conv_lhs =>
      rw [← List.takeWhile_append_dropWhile (p := isRustWhitespace) (l := line)]
    rw [utf8Len_append]
  unfold trimStartL
  omega

theorem noLeadingWs_trimStartL (s : List Char) :
    noLeadingWs (trimStartL s) = true := by
  unfold trimStartL
  induction s with
  | nil => rfl
  | cons c cs ih =>
    rw [List.dropWhile_cons]
    by_cases h : isRustWhitespace c = true
    · simp [h, ih]
    · simp [h, noLeadingWs]

theorem noLeadingWs_trimEndL (s : List Char) (h : noLeadingWs s = true) :
    noLeadingWs (trimEndL s) = true := by
  obtain ⟨t, ht⟩ := List.dropWhile_suffix (p := isRustWhitespace) (l := s.reverse)
  have hs : s = trimEndL s ++ t.reverse := by
    unfold trimEndL
    rw [← List.reverse_append, ht, List.reverse_reverse]
  rcases hd : trimEndL s with _ | ⟨c, rest⟩
  · rfl
  · rw [hd] at hs
    rw [hs] at h
    simpa [noLeadingWs] using h

theorem noLeadingWs_trimL (s : List Char) : noLeadingWs (trimL s) = true :=
  noLeadingWs_trimEndL _ (noLeadingWs_trimStartL s)

theorem contentFields_noLeadingWs (line : List Char) :
    (contentFields (parse_line line)).all noLeadingWs = true := by
  unfold parse_line
  dsimp only
  split
  · simp [contentFields, noLeadingWs_trimL]
  · split
    · rfl
    · split
      · simp [contentFields, noLeadingWs_trimL]
      · split
        · split
          · split
            · simp [contentFields, noLeadingWs_trimL]
            · simp [contentFields, noLeadingWs_trimL]
          · simp [contentFields, noLeadingWs_trimL]
        · simp [contentFields, noLeadingWs_trimStartL]

/-! ### Claim theorems -/

/-- C1: the claim (and the code's own `test_into_nodes_nested_structure`
test) expects a line at indent 2 to appear as a grandchild under the
nearest enclosing domains; instead, on the test's own input, `into_nodes`
returns the root with both children carrying empty rails — the
indent-2 lines are lost, because children are inserted as clones taken
at creation time. -/
theorem into_nodes_drops_grandchildren :
    into_nodes
      [.Domain "一级域名".toList 0, .Domain "二级域名".toList 1,
       .Atom "三级元素".toList 2, .Reference "父级".toList "引用".toList 1,
       .Link "链接".toList "http://test.com".toList 2]
    = [Node.mk (.Domain (.Category1 "一级域名".toList))
        [Node.mk (.Domain (.Category1 "二级域名".toList)) [],
         Node.mk (.Domain (.Category2 "父级".toList "引用".toList)) []]] := rfl

/-- C2: in the forest returned by `into_nodes`, every direct child stored
in a root's rails itself has empty rails (children are inserted into
their parent as clones taken at creation time), so no node at depth 3 or
deeper ever appears in the returned forest. -/
theorem into_nodes_children_have_empty_rails (lines : List LineContent)
    (root : Node) (hroot : root ∈ into_nodes lines)
    (c : Node) (hc : c ∈ root.rails) : c.rails = [] := by
  unfold into_nodes at hroot
  split at hroot
  · cases hroot
  · dsimp only at hroot
    obtain ⟨p, hp, hguard⟩ := List.mem_filterMap.mp hroot
    have hgood := foldl_attachStep_good lines ([], []) GoodState_nil
    by_cases hcond : indentOfLC p.2 = 0 ∧
        p.1 < ((lines.foldl attachStep ([], [])).1).length
    · rw [if_pos hcond] at hguard
      exact hgood.2 root (List.get?_mem hguard) c hc
    · rw [if_neg hcond] at hguard
      cases hguard

theorem into_nodes_children_have_empty_rails_witness :
    (Node.mk (.Domain (.Category1 ['A'])) [Node.mk (.Element ['x']) []] ∈
      into_nodes [.Domain ['A'] 0, .Atom ['x'] 1]) ∧
    (Node.mk (.Element ['x']) [] ∈
      (Node.mk (.Domain (.Category1 ['A']))
        [Node.mk (.Element ['x']) []]).rails) ∧
    (Node.mk (.Element ['x']) [] : Node).rails = [] :=
  ⟨List.mem_singleton_self _, List.mem_singleton_self _,
    into_nodes_children_have_empty_rails [.Domain ['A'] 0, .Atom ['x'] 1]
      (Node.mk (.Domain (.Category1 ['A'])) [Node.mk (.Element ['x']) []])
      (List.mem_singleton_self _) (Node.mk (.Element ['x']) [])
      (List.mem_singleton_self (Node.mk (.Element ['x']) []))⟩

/-- C3 counterexample: a `"+"` line whose rest contains `">"` is a
`Domain` whose name keeps the `">"`, not a `Reference`. -/
theorem plus_line_with_gt_is_domain_counterexample :
    parse_line "+ a > b".toList = .Domain "a > b".toList 0 ∧
    parse_line "+ a > b".toList ≠ .Reference "a".toList "b".toList 0 := by
  decide

/-- C3 amended: a line whose trimmed text starts with `"+"` and has
length > 1 always tokenizes as `Domain` of the trimmed rest, whether or
not the rest contains `">"`. -/
theorem plus_line_always_domain (line : List Char)
    (h1 : (trimStartL line).head? = some '+')
    (h2 : 1 < (trimStartL line).length) :
    parse_line line =
      .Domain (trimL ((trimStartL line).drop 1))
        ((utf8Len line - utf8Len (trimStartL line)) / 2) := by
  unfold parse_line
  dsimp only
  have hsw : startsWithChar '#' (trimStartL line) = false := by
    simp [startsWithChar, h1]
  have hne : ¬(trimStartL line = ['#']) := by
    intro hh
    rw [hh] at h1
    simp at h1
  have hsw2 : startsWithChar '+' (trimStartL line) = true := by
    simp [startsWithChar, h1]
  simp [hsw, hne, hsw2, h2]

theorem plus_line_always_domain_witness :
    (trimStartL "+ a > b".toList).head? = some '+' ∧
    1 < (trimStartL "+ a > b".toList).length ∧
    parse_line "+ a > b".toList =
      .Domain (trimL ((trimStartL "+ a > b".toList).drop 1))
        ((utf8Len "+ a > b".toList - utf8Len (trimStartL "+ a > b".toList)) / 2) :=
  ⟨by decide, by decide, plus_line_always_domain _ (by decide) (by decide)⟩

set_option maxRecDepth 40000 in
/-- C4: the claim (and the code's own comment tests) expects `"# note"`
to tokenize as `Comment("note")`, leaving no trace in the HTML; instead
the tokenizer's `!starts_with("# ")` guard makes it an `Atom`, the forest
is `[PlaceHolder, Element("# note"), Domain(Category1("D"))]`, and the
rendered HTML contains the paragraph `<p># note</p>`. -/
theorem hash_space_line_renders_as_paragraph :
    into_nodes (parse_lines "#\n# note\n+ D".toList)
      = [Node.mk .PlaceHolder [], Node.mk (.Element "# note".toList) [],
         Node.mk (.Domain (.Category1 "D".toList)) []] ∧
    hasSubstr (generate_html (into_nodes (parse_lines "#\n# note\n+ D".toList))
        "t".toList) "<p># note</p>".toList = true :=
  ⟨rfl, by decide⟩

/-- C5 counterexample: a single line at indent 1 does not appear in the
returned forest at all. -/
theorem indent_one_orphan_counterexample :
    mkNode (.Atom ['x'] 1) ∉ into_nodes [.Atom ['x'] 1] :=
  fun h => List.not_mem_nil _ h

/-- C5 amended: for every input, the final collection loop of
`into_nodes` returns exactly the arena nodes of the indent-0 lines, in
source order — a line at indent > 0 never becomes a forest root, even
when the indentation stack is empty after popping; in particular a
single input line at indent 1 yields an empty forest. -/
theorem into_nodes_roots_exactly_indent_zero (lines : List LineContent) :
    into_nodes lines =
      (lines.enum.filter (fun p => indentOfLC p.2 == 0)).map
        (fun p => ((lines.foldl attachStep ([], [])).1).getD p.1
          (Node.mk .PlaceHolder [])) := by
  unfold into_nodes
  cases he : lines.isEmpty
  · simp only [he, Bool.false_eq_true, if_false]
    have hlen : ((lines.foldl attachStep ([], [])).1).length = lines.length := by
      rw [foldl_attachStep_length]
      simp
    exact filterMap_guard_eq_filter_map _ lines.enum (fun p hp => by
      rw [hlen]
      simpa using fst_lt_of_mem_enumFrom hp)
  · have hnil : lines = [] := List.isEmpty_iff.mp he
    subst hnil
    rfl

/-- C6: the number of roots in the forest returned by `into_nodes` equals
the number of input lines whose indent is 0. -/
theorem into_nodes_length_eq_count_indent_zero (lines : List LineContent) :
    (into_nodes lines).length = lines.countP (fun l => indentOfLC l == 0) := by
  unfold into_nodes
  cases he : lines.isEmpty
  · simp only [he, Bool.false_eq_true, if_false]
    have hlen : ((lines.foldl attachStep ([], [])).1).length = lines.length := by
      rw [foldl_attachStep_length]
      simp
    rw [length_filterMap_guard _ lines.enum (fun p hp => by
      rw [hlen]
      simpa using fst_lt_of_mem_enumFrom hp)]
    exact countP_enumFrom (fun l => indentOfLC l == 0) lines 0
  · have hnil : lines = [] := List.isEmpty_iff.mp he
    subst hnil
    rfl

/-- C7 counterexample: a line containing both `">"` (in the key) and
`"="` tokenizes as a `Reference` — the text after `"="` is discarded —
not as a `Link` with the full key. -/
theorem link_with_gt_key_counterexample :
    parse_line "a > b = c".toList = .Reference "a".toList "b".toList 0 ∧
    parse_line "a > b = c".toList ≠ .Link "a > b".toList "c".toList 0 := by
  decide

/-- C7 amended: for a line that matched none of the comment, placeholder
and domain rules and whose trimmed text has its first `"="` at position
`pos`: if the trimmed key contains no `">"` the result is
`Link(key, value)`; if it contains `">"` and splitting on `">"` yields
exactly two parts the result is `Reference` of the two trimmed parts
(the value after `"="` is discarded); if it contains `">"` but splits
into a different number of parts the result is again `Link(key, value)`. -/
theorem eq_branch_link_or_reference (line : List Char) (pos : Nat)
    (h1 : (startsWithChar '#' (trimStartL line)
        && decide ((trimStartL line).length > 1)
        && !(List.isPrefixOf ['#', ' '] (trimStartL line))) = false)
    (h2 : ¬(trimStartL line = ['#']))
    (h3 : (startsWithChar '+' (trimStartL line)
        && decide ((trimStartL line).length > 1)) = false)
    (h4 : (trimStartL line).findIdx? (fun c => c == '=') = some pos) :
    ((trimL ((trimStartL line).take pos)).contains '>' = false →
      parse_line line = .Link (trimL ((trimStartL line).take pos))
        (trimL ((trimStartL line).drop (pos + 1)))
        ((utf8Len line - utf8Len (trimStartL line)) / 2)) ∧
    ((trimL ((trimStartL line).take pos)).contains '>' = true →
      ((trimL ((trimStartL line).take pos)).splitOn '>').length = 2 →
      parse_line line = .Reference
        (trimL (((trimL ((trimStartL line).take pos)).splitOn '>').getD 0 []))
        (trimL (((trimL ((trimStartL line).take pos)).splitOn '>').getD 1 []))
        ((utf8Len line - utf8Len (trimStartL line)) / 2)) ∧
    ((trimL ((trimStartL line).take pos)).contains '>' = true →
      ((trimL ((trimStartL line).take pos)).splitOn '>').length ≠ 2 →
      parse_line line = .Link (trimL ((trimStartL line).take pos))
        (trimL ((trimStartL line).drop (pos + 1)))
        ((utf8Len line - utf8Len (trimStartL line)) / 2)) := by
  unfold parse_line
  dsimp only
  simp only [h1, Bool.false_eq_true, if_false, h2, h3, h4]
  refine ⟨fun hc => ?_, fun hc hl => ?_, fun hc hl => ?_⟩
  · rw [if_neg (by rw [hc]; exact Bool.false_ne_true)]
  · rw [if_pos hc, if_pos hl]
  · rw [if_pos hc, if_neg hl]

theorem eq_branch_link_or_reference_witness :
    parse_line "k = v".toList = .Link (trimL ((trimStartL "k = v".toList).take 2))
        (trimL ((trimStartL "k = v".toList).drop 3))
        ((utf8Len "k = v".toList - utf8Len (trimStartL "k = v".toList)) / 2) :=
  (eq_branch_link_or_reference "k = v".toList 2 (by decide) (by decide)
    (by decide) (by decide)).1 (by decide)

/-- C8 counterexample: a line with two leading tabs gets indent 1 from
the code (all leading whitespace bytes count), while the claim's formula
floor(leading-space-count / 2) gives 0. -/
theorem tab_indent_counterexample :
    indentOfLC (parse_line ('\t' :: '\t' :: ['a'])) ≠
      leadingSpaceCount ('\t' :: '\t' :: ['a']) / 2 := by
  decide

/-- C8 amended: for every line, the indent equals
floor(UTF-8 byte length of the leading whitespace / 2), where leading
whitespace is everything `trim_start` removes (tabs and all other
whitespace included, counted in bytes, not only space characters); and
the classified content never starts with a whitespace character. -/
theorem parse_line_indent_whitespace_bytes (line : List Char) :
    indentOfLC (parse_line line) =
      utf8Len (line.takeWhile isRustWhitespace) / 2 ∧
    (contentFields (parse_line line)).all noLeadingWs = true :=
  ⟨by rw [indent_parse_line, utf8Len_sub_trimStart],
    contentFields_noLeadingWs line⟩

/-- C9: an `Element` node renders as a paragraph containing its text
verbatim — the raw text is concatenated into the HTML unchanged, with no
escaping, whatever characters it contains. -/
theorem element_renders_verbatim (text : List Char) (rails : List Node)
    (level : Nat) :
    node_to_html (Node.mk (.Element text) rails) level =
      repeatL "  ".toList level ++ "<p>".toList ++ text ++ "</p>\n".toList := by
  rw [node_to_html]

/-- C10: tokenization and tree building are total: the variants of
`parse_line` and `into_nodes` in which every string slice and vector
index is bounds-checked succeed on every input and agree with the total
functions — no input reaches a panic. -/
theorem tokenizer_and_builder_total :
    (∀ line : List Char, parse_lineO line = some (parse_line line)) ∧
    (∀ lines : List LineContent, into_nodesO lines = some (into_nodes lines)) :=
  ⟨parse_lineO_eq, into_nodesO_eq⟩

end Lore
